import Mathlib

/-!
Verification of the minigrep library from Chapter-12/minigrep/src of the
repository. Rust strings are modelled as lists of characters; the library
functions search, search_case_insensitive, Config::build and run are embedded
as pure Lean functions over that model. Standard-library behaviour that the
code relies on (str::lines, str::contains, str::to_lowercase, env::var) is
embedded alongside, restricted where noted to the character ranges exercised
in this development.
-/

namespace Minigrep

/-- Strings are modelled as their sequence of Unicode scalar values. -/
abbrev Str : Type := List Char

/-- Embedding of Rust str::lines, as used by search: content is split at
newline characters, a carriage return immediately preceding a newline is
stripped, and content ending in a newline yields no extra empty final line. -/
def rustLines : Str → List Str
  | [] => []
  | '\n' :: rest => [] :: rustLines rest
  | '\r' :: '\n' :: rest => [] :: rustLines rest
  | c :: rest =>
    match rustLines rest with
    | [] => [[c]]
    | l :: ls => (c :: l) :: ls

/-- Embedding of the unconditional character-level lowercase table of Rust
std, restricted to the characters exercised in this development: ASCII
uppercase letters, the Latin letter Ä, and the Greek capital letters, each of
which lowers by adding 32 to the scalar value; every other character maps to
itself. The capital sigma entry is the default (non word-final) form; the
contextual Final_Sigma rule is applied by toLowercaseAux. -/
def charToLower (c : Char) : Str :=
  if 'A' ≤ c ∧ c ≤ 'Z' then [Char.ofNat (c.toNat + 32)]
  else if c = 'Ä' then ['ä']
  else if 'Α' ≤ c ∧ c ≤ 'Ρ' then [Char.ofNat (c.toNat + 32)]
  else if 'Σ' ≤ c ∧ c ≤ 'Ϋ' then [Char.ofNat (c.toNat + 32)]
  else [c]

/-- Characters with the Unicode Cased property, restricted to the character
ranges used in this development (ASCII letters, Ä and ä, the Greek block
letters). -/
def isCased (c : Char) : Bool :=
  decide (('A' ≤ c ∧ c ≤ 'Z') ∨ ('a' ≤ c ∧ c ≤ 'z') ∨ c = 'Ä' ∨ c = 'ä' ∨
    ('Α' ≤ c ∧ c ≤ 'ϋ'))

/-- Characters with the Unicode Case_Ignorable property, restricted to the
punctuation appearing in this development. -/
def caseIgnorable (c : Char) : Bool :=
  decide (c = '.' ∨ c = ':')

/-- Helper for the Final_Sigma context of Rust str::to_lowercase: skipping
case-ignorable characters, is the first character of the list cased. -/
def caseIgnorableThenCased : Str → Bool
  | [] => false
  | c :: rest => if caseIgnorable c then caseIgnorableThenCased rest else isCased c

/-- Embedding of Rust str::to_lowercase. The Boolean argument records whether,
scanning backwards past case-ignorable characters, the nearest preceding
character is cased; a capital sigma maps to the final form exactly when that
holds and the forward context is not cased. -/
def toLowercaseAux : Bool → Str → Str
  | _, [] => []
  | prevCased, c :: rest =>
    (if c = 'Σ' then
      if prevCased && !caseIgnorableThenCased rest then ['ς'] else ['σ']
    else charToLower c)
      ++ toLowercaseAux (if caseIgnorable c then prevCased else isCased c) rest

/-- Embedding of Rust str::to_lowercase on a whole string. -/
def rustToLowercase (s : Str) : Str := toLowercaseAux false s

/-- Embedding of Rust str::contains with a string pattern: the pattern occurs
in the haystack as a contiguous substring. -/
def strContains (hay needle : Str) : Bool := decide (needle <:+: hay)

/-- Embedding of search from lib.rs: enumerate the lines of contents, keeping
the pairs whose line contains the query. -/
def search (query contents : Str) : List (Nat × Str) :=
  ((rustLines contents).enum).filter fun p => strContains p.2 query

/-- Embedding of search_case_insensitive from lib.rs: the query is lowercased
once, and a line is kept when its lowercased form contains the lowercased
query; the pair keeps the original line. -/
def search_case_insensitive (query contents : Str) : List (Nat × Str) :=
  let query := rustToLowercase query
  ((rustLines contents).enum).filter fun p =>
    strContains (rustToLowercase p.2) query

/-- Embedding of the Config struct from lib.rs. -/
structure Config where
  query : Str
  path : Str
  ignore_case : Bool

/-- Embedding of Config::build from lib.rs. The argument iterator is modelled
as a list; the environment access env::var("IGNORE_CASE") is modelled by an
Option that is some value exactly when the variable is present with a Unicode
value, so that is_ok_and equals the test against the value "1". -/
def Config.build (args : List Str) (env : Option Str) : Except Str Config :=
  match args.tail with
  | [] => .error ("mg: missing query".toList)
  | query :: rest =>
    match rest with
    | [] => .error ("mg: missing text to query".toList)
    | path :: _ =>
      .ok { query := query, path := path,
            ignore_case := decide (env = some ("1".toList)) }

/-- Embedding of the observable content of run from lib.rs: reading the file
is replaced by the fileText argument, and printing by the returned list of
pairs, whose first component is the displayed number i + 1. -/
def run (config : Config) (fileText : Str) : List (Nat × Str) :=
  let res :=
    if config.ignore_case then
      search_case_insensitive config.query fileText
    else
      search config.query fileText
  res.map fun p => (p.1 + 1, p.2)

/-- Context-free lowercasing: each character lowered by the unconditional
table, with no Final_Sigma rule. It agrees with rustToLowercase on strings
without a capital sigma. -/
def lowerSimple : Str → Str
  | [] => []
  | c :: rest => charToLower c ++ lowerSimple rest

/-- Test content of the case_sensitive unit test of lib.rs and of scenario A
of the spec. -/
def contentA : Str :=
  "Rust:\nsafe, fast, productive.\nPick three.\nDuct tape.".toList

/-- Test content of scenario C of the spec: a trailing newline at the end of
the content. -/
def contentC : Str := "a\nxb\n".toList

/-! Helper lemmas shared by the claim theorems. -/

/-- Membership in a search result characterised by line lookup and the
substring test. -/
theorem mem_search {q c : Str} {p : Nat × Str} :
    p ∈ search q c ↔ (rustLines c)[p.1]? = some p.2 ∧ strContains p.2 q = true := by
  simp [search, List.mem_filter, List.mem_enum_iff_getElem?]

/-- Membership in a case-insensitive search result characterised by line
lookup and the folded substring test. -/
theorem mem_sci {q c : Str} {p : Nat × Str} :
    p ∈ search_case_insensitive q c ↔
      (rustLines c)[p.1]? = some p.2 ∧
        strContains (rustToLowercase p.2) (rustToLowercase q) = true := by
  simp [search_case_insensitive, List.mem_filter, List.mem_enum_iff_getElem?]

/-- Filtering with a pointwise weaker predicate yields a superlist; the
hypothesis is only required on members. -/
theorem filter_sublist_filter_of_imp {α : Type} {p q : α → Bool} :
    ∀ l : List α, (∀ a ∈ l, p a = true → q a = true) →
      (l.filter p).Sublist (l.filter q)
  | [], _ => List.Sublist.refl _
  | a :: l, h => by
    have hl := filter_sublist_filter_of_imp l fun b hb => h b (List.mem_cons_of_mem a hb)
    by_cases hp : p a = true
    · rw [List.filter_cons_of_pos hp, List.filter_cons_of_pos (h a (List.mem_cons_self a l) hp)]
      exact hl.cons₂ a
    · rw [List.filter_cons_of_neg (by simpa using hp)]
      by_cases hq : q a = true
      · rw [List.filter_cons_of_pos hq]
        exact hl.cons a
      · rw [List.filter_cons_of_neg (by simpa using hq)]
        exact hl

theorem lowerSimple_append (s t : Str) :
    lowerSimple (s ++ t) = lowerSimple s ++ lowerSimple t := by
  induction s with
  | nil => rfl
  | cons c rest ih => simp [lowerSimple, ih]

/-- On strings without a capital sigma, the contextual lowercase agrees with
the context-free one, whatever the left context. -/
theorem toLowercaseAux_of_no_sigma {s : Str} (h : 'Σ' ∉ s) (b : Bool) :
    toLowercaseAux b s = lowerSimple s := by
  induction s generalizing b with
  | nil => rfl
  | cons c rest ih =>
    have hc : c ≠ 'Σ' := fun hc => h (hc ▸ List.mem_cons_self c rest)
    have hr : 'Σ' ∉ rest := fun hr => h (List.mem_cons_of_mem c hr)
    simp [toLowercaseAux, lowerSimple, hc, ih hr]

theorem rustToLowercase_of_no_sigma {s : Str} (h : 'Σ' ∉ s) :
    rustToLowercase s = lowerSimple s :=
  toLowercaseAux_of_no_sigma h false

/-- Context-free lowercasing preserves the substring relation. -/
theorem lowerSimple_infix {q l : Str} (h : q <:+: l) :
    lowerSimple q <:+: lowerSimple l := by
  obtain ⟨s, t, rfl⟩ := h
  exact ⟨lowerSimple s, lowerSimple t, by simp [lowerSimple_append]⟩

/-- Enumeration produces strictly increasing first components. -/
theorem enum_pairwise_fst_lt {α : Type} (l : List α) :
    l.enum.Pairwise fun a b => a.1 < b.1 := by
  have h := List.pairwise_lt_range l.length
  rw [← List.enum_map_fst] at h
  exact List.pairwise_map.mp h

/-- Every character of a produced line occurs in the content: line splitting
never invents characters. -/
theorem rustLines_chars_subset :
    ∀ s : Str, ∀ l ∈ rustLines s, ∀ c ∈ l, c ∈ s := by
  intro s
  induction s using rustLines.induct with
  | case1 => intro l hl; rw [rustLines.eq_1] at hl; simp at hl
  | case2 rest ih =>
    intro l hl ch hc
    rw [rustLines.eq_2] at hl
    rcases List.mem_cons.mp hl with h | h
    · subst h; simp at hc
    · exact List.mem_cons_of_mem _ (ih l h ch hc)
  | case3 rest ih =>
    intro l hl ch hc
    rw [rustLines.eq_3] at hl
    rcases List.mem_cons.mp hl with h | h
    · subst h; simp at hc
    · exact List.mem_cons_of_mem _ (List.mem_cons_of_mem _ (ih l h ch hc))
  | case4 c rest h1 h2 hnil ih =>
    intro l hl ch hc
    rw [rustLines.eq_4 c rest h1 h2, hnil] at hl
    simp only [List.mem_singleton] at hl
    subst hl
    rcases List.mem_singleton.mp hc with rfl
    exact List.mem_cons_self _ _
  | case5 c rest h1 h2 l₀ ls₀ heq ih =>
    intro l hl ch hc
    rw [rustLines.eq_4 c rest h1 h2, heq] at hl
    rcases List.mem_cons.mp hl with h | h
    · subst h
      rcases List.mem_cons.mp hc with rfl | h'
      · exact List.mem_cons_self _ _
      · exact List.mem_cons_of_mem _ (ih l₀ (heq ▸ List.mem_cons_self _ _) ch h')
    · exact List.mem_cons_of_mem _ (ih l (heq ▸ List.mem_cons_of_mem _ h) ch hc)

/-- Newline-free nonempty content is a single line, included although it has
no trailing newline. -/
theorem rustLines_no_newline :
    ∀ {s : Str}, '\n' ∉ s → s ≠ [] → rustLines s = [s] := by
  intro s
  induction s with
  | nil => intro _ h; exact absurd rfl h
  | cons c rest ih =>
    intro hnl _
    have hc : c ≠ '\n' := fun h => hnl (h ▸ List.mem_cons_self c rest)
    have hrest : '\n' ∉ rest := fun h => hnl (List.mem_cons_of_mem c h)
    have h2 : ∀ r : List Char, c = '\r' → rest = '\n' :: r → False := by
      intro r _ hr
      exact hrest (hr ▸ List.mem_cons_self _ _)
    rw [rustLines.eq_4 c rest (fun h => hc h) h2]
    cases rest with
    | nil => rw [rustLines.eq_1]
    | cons d ds => rw [ih hrest (by simp)]

/-- Appending a newline to nonempty content that ends neither in a newline
nor a carriage return does not change the produced lines: no spurious empty
final line. -/
theorem rustLines_append_newline :
    ∀ {s : Str}, '\r' ∉ s → s ≠ [] → s.getLast? ≠ some '\n' →
      rustLines (s ++ ['\n']) = rustLines s := by
  intro s
  induction s with
  | nil => intro _ h _; exact absurd rfl h
  | cons c rest ih =>
    intro hcr _ hlast
    have hrcr : '\r' ∉ rest := fun h => hcr (List.mem_cons_of_mem c h)
    have hcne : c ≠ '\r' := fun h => hcr (h ▸ List.mem_cons_self c rest)
    by_cases hcn : c = '\n'
    · subst hcn
      cases rest with
      | nil => simp at hlast
      | cons d ds =>
        have hl : (d :: ds).getLast? ≠ some '\n' := by
          simpa [List.getLast?_cons_cons] using hlast
        calc rustLines (('\n' :: d :: ds) ++ ['\n'])
            = [] :: rustLines ((d :: ds) ++ ['\n']) := by
              rw [List.cons_append, rustLines.eq_2]
          _ = [] :: rustLines (d :: ds) := by rw [ih hrcr (by simp) hl]
          _ = rustLines ('\n' :: d :: ds) := (rustLines.eq_2 _).symm
    · cases rest with
      | nil =>
        have h2a : ∀ r : List Char, c = '\r' → ('\n' :: [] : Str) = '\n' :: r → False :=
          fun r h _ => hcne h
        have h2b : ∀ r : List Char, c = '\r' → ([] : Str) = '\n' :: r → False :=
          fun r h hr => by simp at hr
        rw [List.cons_append, List.nil_append,
          rustLines.eq_4 c ['\n'] (fun h => hcn h) h2a,
          rustLines.eq_4 c [] (fun h => hcn h) h2b,
          rustLines.eq_2, rustLines.eq_1]
      | cons d ds =>
        have hl : (d :: ds).getLast? ≠ some '\n' := by
          simpa [List.getLast?_cons_cons] using hlast
        have h2a : ∀ r : List Char, c = '\r' → ((d :: ds) ++ ['\n'] : Str) = '\n' :: r → False :=
          fun r h _ => hcne h
        have h2b : ∀ r : List Char, c = '\r' → (d :: ds : Str) = '\n' :: r → False :=
          fun r h _ => hcne h
        rw [List.cons_append,
          rustLines.eq_4 c ((d :: ds) ++ ['\n']) (fun h => hcn h) h2a,
          rustLines.eq_4 c (d :: ds) (fun h => hcn h) h2b,
          ih hrcr (by simp) hl]

/-- Echo of the unit test case_sensitive of lib.rs: the expected pair carries
the 0-based enumerate index 1. -/
theorem lib_test_case_sensitive :
    search ("duct".toList) contentA = [(1, "safe, fast, productive.".toList)] := by
  decide

/-- Echo of the unit test case_insensitive of lib.rs: pairs carry the 0-based
enumerate indices 0 and 3. -/
theorem lib_test_case_insensitive :
    search_case_insensitive ("rUsT".toList)
      ("Rust:\nsafe, fast, productive.\nPick three.\nTrust me.".toList)
      = [(0, "Rust:".toList), (3, "Trust me.".toList)] := by
  decide

/-- Sanity check of the embedded lowercase conversion on the documented Rust
example with a word-final capital sigma. -/
theorem rustToLowercase_final_sigma :
    rustToLowercase ("ΑΣ".toList) = "ας".toList := by decide

/-! Claim theorems. -/

/-- C1, counterexample: at the scenario input, search returns the matching
line with the 0-based enumerate index 1, not the 1-based pair demanded by the
claim. -/
theorem search_scenarioA_not_one_based :
    search ("duct".toList) contentA = [(1, "safe, fast, productive.".toList)] ∧
      search ("duct".toList) contentA ≠ [(2, "safe, fast, productive.".toList)] := by
  decide

/-- C1 (amended): every pair returned by search has a line containing the
query as a contiguous substring and an index equal to the 0-based position of
the line in the line sequence of the content; in particular the duct query on
scenario A returns exactly the pair with index 1. -/
theorem search_pairs_sound_scenarioA :
    (∀ q c : Str, ∀ p ∈ search q c,
        strContains p.2 q = true ∧ (rustLines c)[p.1]? = some p.2) ∧
      search ("duct".toList) contentA
        = [(1, "safe, fast, productive.".toList)] := by
  constructor
  · intro q c p hp
    exact ⟨(mem_search.mp hp).2, (mem_search.mp hp).1⟩
  · decide

/-- Witness for the amended C1 at the scenario input. -/
theorem search_pairs_sound_scenarioA_witness :
    strContains ("safe, fast, productive.".toList) ("duct".toList) = true ∧
      (rustLines contentA)[1]? = some ("safe, fast, productive.".toList) := by
  have h := search_pairs_sound_scenarioA
  exact h.1 ("duct".toList) contentA (1, "safe, fast, productive.".toList)
    (by rw [h.2]; exact List.mem_singleton.mpr rfl)

/-- C2, counterexample: with the capital sigma query on the content ΑΣ, the
case-sensitive search matches the single line but the case-insensitive search
matches nothing, because lowercasing maps the word-final capital sigma to the
final form ς while the lowercased query holds σ; so the first result is not a
subsequence of the second. -/
theorem search_not_sublist_sci_sigma :
    search ("Σ".toList) ("ΑΣ".toList) = [(0, "ΑΣ".toList)] ∧
      search_case_insensitive ("Σ".toList) ("ΑΣ".toList) = [] ∧
      ¬ (search ("Σ".toList) ("ΑΣ".toList)).Sublist
          (search_case_insensitive ("Σ".toList) ("ΑΣ".toList)) := by
  decide

/-- C2 (amended): on query and content free of the Greek capital sigma, the
only character whose lowercase mapping is context-sensitive, the
case-sensitive result is a sublist, hence a subsequence by line number, of
the case-insensitive result. -/
theorem search_sublist_sci_no_sigma :
    ∀ q c : Str, 'Σ' ∉ q → 'Σ' ∉ c →
      (search q c).Sublist (search_case_insensitive q c) := by
  intro q c hq hc
  simp only [search, search_case_insensitive]
  apply filter_sublist_filter_of_imp
  intro p hp hmatch
  have hline : p.2 ∈ rustLines c :=
    List.mem_iff_getElem?.mpr ⟨p.1, List.mem_enum_iff_getElem?.mp hp⟩
  have hls : 'Σ' ∉ p.2 := fun h => hc (rustLines_chars_subset c p.2 hline 'Σ' h)
  simp only [strContains, decide_eq_true_eq] at hmatch ⊢
  rw [rustToLowercase_of_no_sigma hq, rustToLowercase_of_no_sigma hls]
  exact lowerSimple_infix hmatch

/-- Witness for the amended C2 on sigma-free inputs. -/
theorem search_sublist_sci_no_sigma_witness :
    (search ("Rust".toList) ("Rust:\nrust".toList)).Sublist
      (search_case_insensitive ("Rust".toList) ("Rust:\nrust".toList)) :=
  search_sublist_sci_no_sigma ("Rust".toList) ("Rust:\nrust".toList)
    (by decide) (by decide)

/-- C3: pairs returned by both search functions carry the 0-based enumerate
index of their line, and run produces the 1-based display number i + 1 from
each returned pair. -/
theorem indices_zero_based_run_displays_succ :
    (∀ q c : Str, ∀ p ∈ search q c, (rustLines c)[p.1]? = some p.2) ∧
      (∀ q c : Str, ∀ p ∈ search_case_insensitive q c,
        (rustLines c)[p.1]? = some p.2) ∧
      (∀ (cfg : Config) (text : Str), ∀ p ∈ run cfg text,
        ∃ i, p.1 = i + 1 ∧
          (i, p.2) ∈ (if cfg.ignore_case then
              search_case_insensitive cfg.query text
            else search cfg.query text)) := by
  refine ⟨fun q c p hp => (mem_search.mp hp).1,
    fun q c p hp => (mem_sci.mp hp).1, fun cfg text p hp => ?_⟩
  simp only [run] at hp
  obtain ⟨⟨i, l⟩, hmem, rfl⟩ := List.mem_map.mp hp
  exact ⟨i, rfl, hmem⟩

/-- Witness for C3 at a concrete search result. -/
theorem indices_zero_based_run_displays_succ_witness :
    (rustLines ("a".toList))[0]? = some ("a".toList) := by
  have h := indices_zero_based_run_displays_succ
  exact h.1 ("a".toList) ("a".toList) (0, "a".toList) (by decide)

/-- C4, counterexample: at scenario C the trailing newline produces no extra
line, but the returned pair carries the 0-based index 1, not the 1-based
index 2 demanded by the claim. -/
theorem search_scenarioC_not_one_based :
    search ("x".toList) contentC = [(1, "xb".toList)] ∧
      search ("x".toList) contentC ≠ [(2, "xb".toList)] := by
  decide

/-- C4 (amended): a trailing newline at the end of the content produces no
spurious empty final line, a final line without a trailing newline is still
included, and the scenario C query returns exactly the pair with 0-based
index 1. -/
theorem lines_trailing_newline_behaviour :
    search ("x".toList) contentC = [(1, "xb".toList)] ∧
      (∀ s : Str, '\r' ∉ s → s ≠ [] → s.getLast? ≠ some '\n' →
        rustLines (s ++ ['\n']) = rustLines s) ∧
      (∀ s : Str, '\n' ∉ s → s ≠ [] → rustLines s = [s]) :=
  ⟨by decide, fun _ h1 h2 h3 => rustLines_append_newline h1 h2 h3,
    fun _ h1 h2 => rustLines_no_newline h1 h2⟩

/-- Witness for the amended C4 on concrete content. -/
theorem lines_trailing_newline_behaviour_witness :
    rustLines ("ab".toList ++ ['\n']) = rustLines ("ab".toList) ∧
      rustLines ("ab".toList) = ["ab".toList] := by
  have h := lines_trailing_newline_behaviour
  exact ⟨h.2.1 ("ab".toList) (by decide) (by decide) (by decide),
    h.2.2 ("ab".toList) (by decide) (by decide)⟩

/-- C5, counterexample: the empty query on the single-line content a returns
that line numbered 0, not numbered starting from 1 as the claim demands. -/
theorem empty_query_not_one_based :
    search [] ("a".toList) = [(0, "a".toList)] ∧
      search [] ("a".toList) ≠ [(1, "a".toList)] := by
  decide

/-- C5 (amended): the empty query matches every line of any content, numbered
consecutively from 0 by the enumeration of the line sequence, and any query
on empty content returns the empty sequence. -/
theorem empty_query_all_lines_empty_content_none :
    (∀ c : Str, search [] c = (rustLines c).enum) ∧
      (∀ q : Str, search q [] = []) := by
  constructor
  · intro c
    simp only [search]
    apply List.filter_eq_self.mpr
    intro p _
    simp [strContains]
  · intro q
    rfl

/-- C6: results of both searches have strictly increasing, hence unique, line
indices in input order, every returned line satisfies the active match
predicate, and the result is empty exactly when no line matches. -/
theorem search_result_invariants :
    ∀ q c : Str,
      ((search q c).Pairwise fun a b => a.1 < b.1) ∧
        ((search_case_insensitive q c).Pairwise fun a b => a.1 < b.1) ∧
        (∀ p ∈ search q c, strContains p.2 q = true) ∧
        (∀ p ∈ search_case_insensitive q c,
          strContains (rustToLowercase p.2) (rustToLowercase q) = true) ∧
        (search q c = [] ↔ ∀ l ∈ rustLines c, ¬ strContains l q = true) ∧
        (search_case_insensitive q c = [] ↔
          ∀ l ∈ rustLines c,
            ¬ strContains (rustToLowercase l) (rustToLowercase q) = true) := by
  intro q c
  refine ⟨?_, ?_, fun p hp => (mem_search.mp hp).2, fun p hp => (mem_sci.mp hp).2,
    ?_, ?_⟩
  · exact List.Pairwise.sublist (List.filter_sublist _)
      (enum_pairwise_fst_lt (rustLines c))
  · exact List.Pairwise.sublist (List.filter_sublist _)
      (enum_pairwise_fst_lt (rustLines c))
  · simp only [search, List.filter_eq_nil_iff]
    constructor
    · intro h l hl
      obtain ⟨i, hi⟩ := List.mem_iff_getElem?.mp hl
      exact h (i, l) (List.mem_enum_iff_getElem?.mpr hi)
    · intro h p hp
      exact h p.2 (List.mem_iff_getElem?.mpr ⟨p.1, List.mem_enum_iff_getElem?.mp hp⟩)
  · simp only [search_case_insensitive, List.filter_eq_nil_iff]
    constructor
    · intro h l hl
      obtain ⟨i, hi⟩ := List.mem_iff_getElem?.mp hl
      exact h (i, l) (List.mem_enum_iff_getElem?.mpr hi)
    · intro h p hp
      exact h p.2 (List.mem_iff_getElem?.mpr ⟨p.1, List.mem_enum_iff_getElem?.mp hp⟩)

/-- Witness for C6 extracting the match predicate at a concrete result. -/
theorem search_result_invariants_witness :
    strContains ("ab".toList) ("a".toList) = true := by
  have h := search_result_invariants ("a".toList) ("ab".toList)
  exact h.2.2.1 (0, "ab".toList) (by decide)

/-- C7: each line returned by the case-insensitive search is the original
line of the content at its index, never the folded version used for the
comparison. -/
theorem sci_returns_original_lines :
    ∀ q c : Str, ∀ p ∈ search_case_insensitive q c,
      (rustLines c)[p.1]? = some p.2 :=
  fun _ _ _ hp => (mem_sci.mp hp).1

/-- Witness for C7: the returned line keeps its original casing although it
differs from its folded form. -/
theorem sci_returns_original_lines_witness :
    (rustLines ("Rust:".toList))[0]? = some ("Rust:".toList) ∧
      "Rust:".toList ≠ rustToLowercase ("Rust:".toList) :=
  ⟨sci_returns_original_lines ("rust".toList) ("Rust:".toList)
      (0, "Rust:".toList) (by decide), by decide⟩

/-- C8: case folding is Unicode aware: the non-ASCII letter Ä folds to ä, an
Ä query matches an ä line case-insensitively though not case-sensitively, and
queries with equal folds give identical case-insensitive results. -/
theorem sci_unicode_fold :
    rustToLowercase ("Ä".toList) = "ä".toList ∧
      search_case_insensitive ("Ä".toList) ("ä".toList) = [(0, "ä".toList)] ∧
      search ("Ä".toList) ("ä".toList) = [] ∧
      (∀ q q' c : Str, rustToLowercase q = rustToLowercase q' →
        search_case_insensitive q c = search_case_insensitive q' c) := by
  refine ⟨by decide, by decide, by decide, fun q q' c h => ?_⟩
  simp only [search_case_insensitive, h]

/-- Witness for C8: the uppercase and lowercase Ä queries are
interchangeable. -/
theorem sci_unicode_fold_witness :
    search_case_insensitive ("Ä".toList) ("Äb".toList)
      = search_case_insensitive ("ä".toList) ("Äb".toList) :=
  sci_unicode_fold.2.2.2 ("Ä".toList) ("ä".toList) ("Äb".toList) (by decide)

/-- C9: a successfully built configuration has ignore_case set exactly when
the IGNORE_CASE variable holds the value 1, and run then performs the
case-insensitive search exactly in that case, displaying each index
incremented. -/
theorem ignore_case_env_selects_search :
    ∀ (args : List Str) (env : Option Str) (cfg : Config),
      Config.build args env = .ok cfg →
        (cfg.ignore_case = true ↔ env = some ("1".toList)) ∧
          (∀ text : Str,
            run cfg text =
              (if env = some ("1".toList) then
                  search_case_insensitive cfg.query text
                else search cfg.query text).map fun p => (p.1 + 1, p.2)) := by
  intro args env cfg hb
  have hic : cfg.ignore_case = decide (env = some ("1".toList)) := by
    rw [Config.build.eq_def] at hb
    rcases hargs : args.tail with _ | ⟨q, _ | ⟨p, rest⟩⟩ <;> rw [hargs] at hb
    · simp at hb
    · simp at hb
    · simp only at hb
      injection hb with hb
      rw [← hb]
  constructor
  · rw [hic]
    simp
  · intro text
    simp only [run, hic]
    by_cases he : env = some ("1".toList)
    · simp [he]
    · simp [he]

/-- Witness for C9 at a concrete argument list with the variable set to 1. -/
theorem ignore_case_env_selects_search_witness :
    run ⟨"q".toList, "p".toList, true⟩ ("q".toList)
      = (search_case_insensitive ("q".toList) ("q".toList)).map
          (fun p => (p.1 + 1, p.2)) := by
  have h := ignore_case_env_selects_search
    ["mg".toList, "q".toList, "p".toList] (some ("1".toList))
    ⟨"q".toList, "p".toList, true⟩ (by rfl)
  simpa using h.2 ("q".toList)

/-- C10: building fails with the missing-query message when no argument
follows the program name, fails with the missing-text message when exactly
one does, and otherwise succeeds with query and path taken from the second
and third arguments. -/
theorem build_requires_query_and_path :
    ∀ env : Option Str,
      Config.build [] env = .error ("mg: missing query".toList) ∧
        (∀ a : Str, Config.build [a] env = .error ("mg: missing query".toList)) ∧
        (∀ a q : Str,
          Config.build [a, q] env
            = .error ("mg: missing text to query".toList)) ∧
        (∀ (a q p : Str) (rest : List Str),
          Config.build (a :: q :: p :: rest) env
            = .ok ⟨q, p, decide (env = some ("1".toList))⟩) :=
  fun _ => ⟨rfl, fun _ => rfl, fun _ _ => rfl, fun _ _ _ _ => rfl⟩

end Minigrep
